import Mathlib

/-!
# Needleman–Wunsch alignment plugin: verification of the spec against the code

Shallow embedding of `src/plugin/src/{algorithm,scoring,matrices,lib}.rs`.
`f32` scores are modelled as exact rationals (`ℚ`); all score values in the
program are small integers and the claims under study are structural, not
rounding-dependent.  Rust's `f32::max` on the values that occur is the order
maximum, modelled by `max` on `ℚ`.  Strings are modelled as `List Char`;
`char::to_ascii_uppercase` is `Char.toUpper` (both act on ASCII letters only).
A direction byte `u8` is modelled as `Nat`; the Rust test `(dir & bit) != 0`
is `Nat.testBit` at the bit's position.
-/

namespace NW

/-- `Iterator::reduce(f32::max)`: `none` on the empty list, otherwise the fold
of `max` over the list starting from its head. -/
def reduceMax (l : List ℚ) : Option ℚ :=
  match l with
  | [] => none
  | x :: xs => some (xs.foldl max x)

/-- `record_optimal_directions` from `algorithm.rs:5-31`: given candidates
`(bit, transitionValue, predecessorScore)`, keep the candidates whose
transition value attains the maximum transition value, then among those keep
the ones whose predecessor score attains the maximum predecessor score, and
or together their bits.  The two `unwrap()`s in the source never fail (the
lists reduced are nonempty whenever reached); the `none` branches here are
dead code kept only to make the function total. -/
def record_optimal_directions (candidates : List (Nat × ℚ × ℚ)) : Nat :=
  match reduceMax (candidates.map fun c => c.2.1) with
  | none => 0
  | some best_transition =>
    let valid_candidates := candidates.filter fun c => c.2.1 == best_transition
    match reduceMax (valid_candidates.map fun c => c.2.2) with
    | none => 0
    | some max_pred =>
      (valid_candidates.filter fun c => c.2.2 == max_pred).foldl
        (fun acc c => acc ||| c.1) 0

/-- The score matrix of `needleman_wunsch_linear` (`algorithm.rs:46-87`),
expressed as the recurrence the fill loop implements: cell `(i,j)` is written
once, from the already-final cells `(i-1,j-1)`, `(i-1,j)`, `(i,j-1)`. -/
def M (seq1 seq2 : List Char) (scorer : Char → Char → ℚ) (gap : ℚ) :
    Nat → Nat → ℚ
  | 0, 0 => 0
  | i + 1, 0 => ((i : ℚ) + 1) * gap
  | 0, j + 1 => ((j : ℚ) + 1) * gap
  | i + 1, j + 1 =>
    let diag := M seq1 seq2 scorer gap i j +
      scorer (seq1.getD i ' ') (seq2.getD j ' ')
    let up := M seq1 seq2 scorer gap i (j + 1) + gap
    let left := M seq1 seq2 scorer gap (i + 1) j + gap
    max (max diag up) left
  termination_by i j => i + j

/-- The direction matrix of `needleman_wunsch_linear`: border cells are forced
to Up (`2`) / Left (`4`), interior cells come from
`record_optimal_directions` on the three candidates of `algorithm.rs:80-84`. -/
def dirs (seq1 seq2 : List Char) (scorer : Char → Char → ℚ) (gap : ℚ) :
    Nat → Nat → Nat
  | 0, 0 => 0
  | _ + 1, 0 => 2
  | 0, _ + 1 => 4
  | i + 1, j + 1 =>
    let diag := M seq1 seq2 scorer gap i j +
      scorer (seq1.getD i ' ') (seq2.getD j ' ')
    let up := M seq1 seq2 scorer gap i (j + 1) + gap
    let left := M seq1 seq2 scorer gap (i + 1) j + gap
    record_optimal_directions
      [(1, diag, M seq1 seq2 scorer gap i j),
       (2, up, M seq1 seq2 scorer gap i (j + 1)),
       (4, left, M seq1 seq2 scorer gap (i + 1) j)]

/-- One step of the output traceback path (`lib.rs:57-62`). -/
structure PathStep where
  i : Nat
  j : Nat
  deriving DecidableEq, Repr

/-- One alignment result (`lib.rs:66-71`). -/
structure Alignment where
  aligned_seq1 : List Char
  aligned_seq2 : List Char
  path : List PathStep
  deriving DecidableEq, Repr

/-- Builds an `Alignment` from the accumulated traceback stack
(`algorithm.rs:129-146`).  The Rust stack is read in reverse (last pushed
first); the model conses each pushed entry, so the list is already in the
Rust reverse-iteration order. -/
def buildAlignment (current_path : List (Nat × Nat × Char × Char)) : Alignment :=
  { aligned_seq1 := current_path.map fun s => s.2.2.1
    aligned_seq2 := current_path.map fun s => s.2.2.2
    path := ⟨0, 0⟩ :: current_path.map fun s => ⟨s.1, s.2.1⟩ }

/-- `find_all_paths_linear` (`algorithm.rs:115-171`): depth-first traceback
following the direction bits, Diagonal first, then Up, then Left, with the
shared results vector threaded through and an early exit once `max_paths`
alignments are complete.  `(dir & 1) != 0` is `dir.testBit 0`, etc. -/
def find_all_paths_linear (directions : Nat → Nat → Nat)
    (seq1 seq2 : List Char) (max_paths : Nat) (i j : Nat)
    (current_path : List (Nat × Nat × Char × Char))
    (results : List Alignment) : List Alignment :=
  if max_paths ≤ results.length then results
  else if i = 0 ∧ j = 0 then results ++ [buildAlignment current_path]
  else
    let dir := directions i j
    let r1 :=
      if h1 : 0 < i ∧ 0 < j ∧ dir.testBit 0 then
        find_all_paths_linear directions seq1 seq2 max_paths (i - 1) (j - 1)
          ((i, j, seq1.getD (i - 1) ' ', seq2.getD (j - 1) ' ') :: current_path)
          results
      else results
    let r2 :=
      if h2 : 0 < i ∧ dir.testBit 1 ∧ r1.length < max_paths then
        find_all_paths_linear directions seq1 seq2 max_paths (i - 1) j
          ((i, j, seq1.getD (i - 1) ' ', '-') :: current_path) r1
      else r1
    let r3 :=
      if h3 : 0 < j ∧ dir.testBit 2 ∧ r2.length < max_paths then
        find_all_paths_linear directions seq1 seq2 max_paths i (j - 1)
          ((i, j, '-', seq2.getD (j - 1) ' ') :: current_path) r2
      else r2
    r3
  termination_by (i, j)
  decreasing_by
    · exact Prod.Lex.left _ _ (by omega)
    · exact Prod.Lex.left _ _ (by omega)
    · exact Prod.Lex.right' _ (by omega) (by omega)

/-- The score matrices part of the output (`lib.rs:75-78`). -/
structure Matrices where
  m : List (List ℚ)
  deriving DecidableEq, Repr

/-- The output of the alignment algorithm (`lib.rs:82-89`). -/
structure AlignmentOutput where
  score : ℚ
  alignments : List Alignment
  matrices : Matrices
  deriving DecidableEq, Repr

/-- `needleman_wunsch_linear` (`algorithm.rs:34-112`): fill the score and
direction matrices, run the traceback from `(n, m)`, and return the score at
`(n, m)`, the alignments, and the `(n+1) × (m+1)` score matrix. -/
def needleman_wunsch_linear (seq1 seq2 : List Char)
    (scorer : Char → Char → ℚ) (gap_penalty : ℚ) (max_paths : Nat) :
    AlignmentOutput :=
  let n := seq1.length
  let m := seq2.length
  { score := M seq1 seq2 scorer gap_penalty n m
    alignments := find_all_paths_linear (dirs seq1 seq2 scorer gap_penalty)
      seq1 seq2 max_paths n m [] []
    matrices :=
      { m := (List.range (n + 1)).map fun i =>
          (List.range (m + 1)).map fun j => M seq1 seq2 scorer gap_penalty i j } }

theorem foldl_max_le_iff (xs : List ℚ) (x y : ℚ) :
    xs.foldl max x ≤ y ↔ x ≤ y ∧ ∀ z ∈ xs, z ≤ y := by
  induction xs generalizing x with
  | nil => simp
  | cons a as ih =>
    simp only [List.foldl_cons, ih, max_le_iff, List.mem_cons]
    constructor
    · rintro ⟨⟨h1, h2⟩, h3⟩
      exact ⟨h1, fun z hz => by rcases hz with rfl | hz; exact h2; exact h3 z hz⟩
    · rintro ⟨h1, h2⟩
      exact ⟨⟨h1, h2 a (Or.inl rfl)⟩, fun z hz => h2 z (Or.inr hz)⟩

theorem foldl_max_mem (xs : List ℚ) (x : ℚ) :
    xs.foldl max x = x ∨ xs.foldl max x ∈ xs := by
  induction xs generalizing x with
  | nil => simp
  | cons a as ih =>
    rcases ih (max x a) with h | h
    · rcases max_choice x a with h' | h'
      · left; rw [List.foldl_cons, h, h']
      · right; rw [List.foldl_cons, h, h']; exact List.mem_cons_self a as
    · right; exact List.mem_cons_of_mem a h

theorem reduceMax_spec {l : List ℚ} {m : ℚ} (h : reduceMax l = some m) :
    m ∈ l ∧ ∀ x ∈ l, x ≤ m := by
  match l with
  | [] => simp [reduceMax] at h
  | x :: xs =>
    simp only [reduceMax, Option.some.injEq] at h
    subst h
    refine ⟨?_, ?_⟩
    · rcases foldl_max_mem xs x with h | h
      · rw [h]; exact List.mem_cons_self x xs
      · exact List.mem_cons_of_mem x h
    · intro y hy
      have := (foldl_max_le_iff xs x (xs.foldl max x)).mp le_rfl
      rcases hy with _ | hy
      · exact this.1
      · exact this.2 y (by assumption)

theorem reduceMax_eq_none_iff {l : List ℚ} : reduceMax l = none ↔ l = [] := by
  cases l <;> simp [reduceMax]

theorem testBit_foldl_or (cs : List (Nat × ℚ × ℚ)) (acc k : Nat) :
    (cs.foldl (fun a c => a ||| c.1) acc).testBit k ↔
      acc.testBit k ∨ ∃ c ∈ cs, (c.1).testBit k := by
  induction cs generalizing acc with
  | nil => simp
  | cons c cs ih =>
    simp only [List.foldl_cons, ih, Nat.testBit_or, Bool.or_eq_true, List.mem_cons]
    constructor
    · rintro (⟨h | h⟩ | ⟨c', hc', h⟩)
      · exact Or.inl h
      · exact Or.inr ⟨c, Or.inl rfl, h⟩
      · exact Or.inr ⟨c', Or.inr hc', h⟩
    · rintro (h | ⟨c', (rfl | hc'), h⟩)
      · exact Or.inl (Or.inl h)
      · exact Or.inl (Or.inr h)
      · exact Or.inr ⟨c', hc', h⟩

/-- Characterization of `record_optimal_directions` on the three fill
candidates: bit `k` is set iff some candidate carries bit `k`, attains the
best transition value, and its predecessor score dominates that of every
candidate tied at the best transition value. -/
theorem rod_testBit_three (d u l pd pu pl : ℚ) (k : Nat) :
    (record_optimal_directions [(1, d, pd), (2, u, pu), (4, l, pl)]).testBit k ↔
      ∃ c ∈ [((1 : Nat), d, pd), (2, u, pu), (4, l, pl)],
        (c.1).testBit k ∧ c.2.1 = max (max d u) l ∧
        ∀ c' ∈ [((1 : Nat), d, pd), (2, u, pu), (4, l, pl)],
          c'.2.1 = max (max d u) l → c'.2.2 ≤ c.2.2 := by
  have hbest : reduceMax ([((1 : Nat), d, pd), (2, u, pu), (4, l, pl)].map
      fun c => c.2.1) = some (max (max d u) l) := by
    simp [reduceMax]
  set cs : List (Nat × ℚ × ℚ) := [(1, d, pd), (2, u, pu), (4, l, pl)] with hcs
  set best := max (max d u) l with hb
  have hvalid_ne : ∃ c ∈ cs, c.2.1 = best := by
    rcases max_choice (max d u) l with h | h
    · rcases max_choice d u with h' | h'
      · exact ⟨(1, d, pd), by simp [hcs], by rw [hb, h, h']⟩
      · exact ⟨(2, u, pu), by simp [hcs], by rw [hb, h, h']⟩
    · exact ⟨(4, l, pl), by simp [hcs], by rw [hb, h]⟩
  unfold record_optimal_directions
  rw [hbest]
  simp only
  set valid := cs.filter fun c => c.2.1 == best with hv
  have hvmem : ∀ c, c ∈ valid ↔ c ∈ cs ∧ c.2.1 = best := by
    intro c; rw [hv, List.mem_filter, beq_iff_eq]
  obtain ⟨c0, hc0, hc0v⟩ := hvalid_ne
  have hvne : valid ≠ [] := by
    intro hnil
    have : c0 ∈ valid := (hvmem c0).mpr ⟨hc0, hc0v⟩
    rw [hnil] at this; exact absurd this (List.not_mem_nil c0)
  rcases hmp : reduceMax (valid.map fun c => c.2.2) with _ | mp
  · rw [reduceMax_eq_none_iff, List.map_eq_nil_iff] at hmp
    exact absurd hmp hvne
  obtain ⟨hmp_mem, hmp_le⟩ := reduceMax_spec hmp
  rw [hmp]
  simp only
  have key : ∀ c, c ∈ valid → (c.2.2 = mp ↔ ∀ c' ∈ valid, c'.2.2 ≤ c.2.2) := by
    intro c hcv
    constructor
    · intro hceq c' hc'
      rw [hceq]
      exact hmp_le c'.2.2 (List.mem_map_of_mem _ hc')
    · intro hall
      obtain ⟨cw, hcw, hcweq⟩ := List.mem_map.mp hmp_mem
      have h1 : mp ≤ c.2.2 := hcweq ▸ hall cw hcw
      have h2 : c.2.2 ≤ mp := hmp_le c.2.2 (List.mem_map_of_mem _ hcv)
      exact le_antisymm h2 h1
  rw [testBit_foldl_or]
  simp only [Nat.zero_testBit, Bool.false_eq_true, false_or]
  constructor
  · rintro ⟨c, hmem, hbit⟩
    rw [List.mem_filter, beq_iff_eq] at hmem
    obtain ⟨hcv, hcmp⟩ := hmem
    obtain ⟨hccs, hcbest⟩ := (hvmem c).mp hcv
    refine ⟨c, hccs, hbit, hcbest, ?_⟩
    intro c' hc' hc'best
    exact ((key c hcv).mp hcmp) c' ((hvmem c').mpr ⟨hc', hc'best⟩)
  · rintro ⟨c, hccs, hbit, hcbest, hdom⟩
    have hcv : c ∈ valid := (hvmem c).mpr ⟨hccs, hcbest⟩
    refine ⟨c, ?_, hbit⟩
    rw [List.mem_filter, beq_iff_eq]
    refine ⟨hcv, (key c hcv).mpr ?_⟩
    intro c' hc'
    obtain ⟨hc'cs, hc'best⟩ := (hvmem c').mp hc'
    exact hdom c' hc'cs hc'best

/-- `SimpleScorer::score` (`scoring.rs:14-22`): fixed match score if the
ASCII-upper-cased characters are equal, else the fixed mismatch penalty. -/
def simpleScorer (match_score mismatch_penalty : ℚ) (a b : Char) : ℚ :=
  if a.toUpper = b.toUpper then match_score else mismatch_penalty

/-- The DIAG transition value at cell `(i,j)` (`algorithm.rs:72`). -/
def diagVal (seq1 seq2 : List Char) (scorer : Char → Char → ℚ) (gap : ℚ)
    (i j : Nat) : ℚ :=
  M seq1 seq2 scorer gap (i - 1) (j - 1) +
    scorer (seq1.getD (i - 1) ' ') (seq2.getD (j - 1) ' ')

/-- The UP transition value at cell `(i,j)` (`algorithm.rs:73`). -/
def upVal (seq1 seq2 : List Char) (scorer : Char → Char → ℚ) (gap : ℚ)
    (i j : Nat) : ℚ :=
  M seq1 seq2 scorer gap (i - 1) j + gap

/-- The LEFT transition value at cell `(i,j)` (`algorithm.rs:74`). -/
def leftVal (seq1 seq2 : List Char) (scorer : Char → Char → ℚ) (gap : ℚ)
    (i j : Nat) : ℚ :=
  M seq1 seq2 scorer gap i (j - 1) + gap

/-- The maximum of the three transition values at cell `(i,j)`. -/
def bestVal (seq1 seq2 : List Char) (scorer : Char → Char → ℚ) (gap : ℚ)
    (i j : Nat) : ℚ :=
  max (max (diagVal seq1 seq2 scorer gap i j) (upVal seq1 seq2 scorer gap i j))
    (leftVal seq1 seq2 scorer gap i j)

theorem rod_three_bit0 (d u l pd pu pl : ℚ) :
    (record_optimal_directions [(1, d, pd), (2, u, pu), (4, l, pl)]).testBit 0 ↔
      d = max (max d u) l ∧ (u = max (max d u) l → pu ≤ pd) ∧
        (l = max (max d u) l → pl ≤ pd) := by
  rw [rod_testBit_three]
  simp +decide [List.forall_mem_cons]

theorem rod_three_bit1 (d u l pd pu pl : ℚ) :
    (record_optimal_directions [(1, d, pd), (2, u, pu), (4, l, pl)]).testBit 1 ↔
      u = max (max d u) l ∧ (d = max (max d u) l → pd ≤ pu) ∧
        (l = max (max d u) l → pl ≤ pu) := by
  rw [rod_testBit_three]
  simp +decide [List.forall_mem_cons]

theorem rod_three_bit2 (d u l pd pu pl : ℚ) :
    (record_optimal_directions [(1, d, pd), (2, u, pu), (4, l, pl)]).testBit 2 ↔
      l = max (max d u) l ∧ (d = max (max d u) l → pd ≤ pl) ∧
        (u = max (max d u) l → pu ≤ pl) := by
  rw [rod_testBit_three]
  simp +decide [List.forall_mem_cons]

theorem exists_max_pred (cs : List (Nat × ℚ × ℚ)) (c0 : Nat × ℚ × ℚ)
    (h : c0 ∈ cs) : ∃ c ∈ cs, ∀ c' ∈ cs, c'.2.2 ≤ c.2.2 := by
  rcases hmp : reduceMax (cs.map fun c => c.2.2) with _ | mp
  · rw [reduceMax_eq_none_iff, List.map_eq_nil_iff] at hmp
    subst hmp; exact absurd h (List.not_mem_nil c0)
  · obtain ⟨hmem, hle⟩ := reduceMax_spec hmp
    obtain ⟨cw, hcw, hcweq⟩ := List.mem_map.mp hmem
    exact ⟨cw, hcw, fun c' hc' => hcweq ▸ hle c'.2.2 (List.mem_map_of_mem _ hc')⟩

theorem rod_three_ne_zero (d u l pd pu pl : ℚ) :
    record_optimal_directions [(1, d, pd), (2, u, pu), (4, l, pl)] ≠ 0 := by
  set cs : List (Nat × ℚ × ℚ) := [(1, d, pd), (2, u, pu), (4, l, pl)] with hcs
  have hvalid_ne : ∃ c ∈ cs, c.2.1 = max (max d u) l := by
    rcases max_choice (max d u) l with h | h
    · rcases max_choice d u with h' | h'
      · exact ⟨(1, d, pd), by simp [hcs], by rw [h, h']⟩
      · exact ⟨(2, u, pu), by simp [hcs], by rw [h, h']⟩
    · exact ⟨(4, l, pl), by simp [hcs], by rw [h]⟩
  obtain ⟨c0, hc0, hc0v⟩ := hvalid_ne
  have h0 : c0 ∈ cs.filter fun c => decide (c.2.1 = max (max d u) l) := by
    rw [List.mem_filter]; exact ⟨hc0, by simp [hc0v]⟩
  obtain ⟨c, hc, hdom⟩ := exists_max_pred _ c0 h0
  obtain ⟨hccs, hcbest⟩ := List.mem_filter.mp hc
  rw [decide_eq_true_iff] at hcbest
  have hpass : ∃ k, (record_optimal_directions cs).testBit k := by
    have hmk : ∀ k, (c.1).testBit k →
        (record_optimal_directions cs).testBit k := by
      intro k hbit
      rw [hcs, rod_testBit_three]
      refine ⟨c, hccs, hbit, hcbest, ?_⟩
      intro c' hc' hb'
      refine hdom c' ?_
      rw [List.mem_filter]; exact ⟨hc', by simp [hb']⟩
    have : c.1 = 1 ∨ c.1 = 2 ∨ c.1 = 4 := by
      rw [hcs] at hccs
      simp only [List.mem_cons, List.not_mem_nil, or_false] at hccs
      rcases hccs with h | h | h <;> simp [h]
    rcases this with h | h | h
    · exact ⟨0, hmk 0 (by rw [h]; decide)⟩
    · exact ⟨1, hmk 1 (by rw [h]; decide)⟩
    · exact ⟨2, hmk 2 (by rw [h]; decide)⟩
  obtain ⟨k, hk⟩ := hpass
  intro hzero
  rw [hzero] at hk
  simp [Nat.zero_testBit] at hk

theorem dirs_interior (seq1 seq2 : List Char) (scorer : Char → Char → ℚ)
    (gap : ℚ) (i j : Nat) :
    dirs seq1 seq2 scorer gap (i + 1) (j + 1) =
      record_optimal_directions
        [(1, diagVal seq1 seq2 scorer gap (i + 1) (j + 1),
            M seq1 seq2 scorer gap i j),
         (2, upVal seq1 seq2 scorer gap (i + 1) (j + 1),
            M seq1 seq2 scorer gap i (j + 1)),
         (4, leftVal seq1 seq2 scorer gap (i + 1) (j + 1),
            M seq1 seq2 scorer gap (i + 1) j)] := by
  simp [dirs, diagVal, upVal, leftVal]

theorem M_interior (seq1 seq2 : List Char) (scorer : Char → Char → ℚ)
    (gap : ℚ) (i j : Nat) :
    M seq1 seq2 scorer gap (i + 1) (j + 1) =
      bestVal seq1 seq2 scorer gap (i + 1) (j + 1) := by
  rw [M, bestVal, diagVal, upVal, leftVal]
  simp

theorem M_succ_zero (seq1 seq2 : List Char) (scorer : Char → Char → ℚ)
    (gap : ℚ) (i : Nat) :
    M seq1 seq2 scorer gap (i + 1) 0 = M seq1 seq2 scorer gap i 0 + gap := by
  cases i with
  | zero => rw [M, M]; ring
  | succ i' => rw [M, M]; push_cast; ring

theorem M_zero_succ (seq1 seq2 : List Char) (scorer : Char → Char → ℚ)
    (gap : ℚ) (j : Nat) :
    M seq1 seq2 scorer gap 0 (j + 1) = M seq1 seq2 scorer gap 0 j + gap := by
  cases j with
  | zero => rw [M, M]; ring
  | succ j' => rw [M, M]; push_cast; ring


theorem fap_mem_prop
    (P : Alignment → Prop)
    (Inv : Nat → Nat → List (Nat × Nat × Char × Char) → Prop)
    (directions : Nat → Nat → Nat) (seq1 seq2 : List Char) (max_paths : Nat)
    (hbase : ∀ p, Inv 0 0 p → P (buildAlignment p))
    (hdiag : ∀ i j p, Inv i j p → 0 < i → 0 < j → (directions i j).testBit 0 →
        Inv (i - 1) (j - 1) ((i, j, seq1.getD (i - 1) ' ', seq2.getD (j - 1) ' ') :: p))
    (hup : ∀ i j p, Inv i j p → 0 < i → (directions i j).testBit 1 →
        Inv (i - 1) j ((i, j, seq1.getD (i - 1) ' ', '-') :: p))
    (hleft : ∀ i j p, Inv i j p → 0 < j → (directions i j).testBit 2 →
        Inv i (j - 1) ((i, j, '-', seq2.getD (j - 1) ' ') :: p))
    (i j : Nat) (p : List (Nat × Nat × Char × Char)) (results : List Alignment)
    (hInv : Inv i j p) (hres : ∀ a ∈ results, P a) :
    ∀ a ∈ find_all_paths_linear directions seq1 seq2 max_paths i j p results,
      P a := by
  rw [find_all_paths_linear]
  by_cases hstop : max_paths ≤ results.length
  · simp only [hstop, if_true]; exact hres
  simp only [hstop, if_false]
  by_cases h00 : i = 0 ∧ j = 0
  · simp only [h00, if_true]
    intro a ha
    rcases List.mem_append.mp ha with h | h
    · exact hres a h
    · obtain ⟨hi0, hj0⟩ := h00
      subst hi0; subst hj0
      rw [List.mem_singleton.mp h]
      exact hbase p hInv
  simp only [h00, if_false]
  have cont3 : ∀ r : List Alignment, (∀ a ∈ r, P a) →
      ∀ a ∈ (if h3 : 0 < j ∧ (directions i j).testBit 2 ∧ r.length < max_paths then
          find_all_paths_linear directions seq1 seq2 max_paths i (j - 1)
            ((i, j, '-', seq2.getD (j - 1) ' ') :: p) r
        else r), P a := by
    intro r hr
    by_cases h3 : 0 < j ∧ (directions i j).testBit 2 ∧ r.length < max_paths
    · simp only [dif_pos h3]
      exact fap_mem_prop P Inv directions seq1 seq2 max_paths hbase hdiag hup
        hleft i (j - 1) _ r (hleft i j p hInv h3.1 h3.2.1) hr
    · simp only [dif_neg h3]; exact hr
  have cont2 : ∀ r : List Alignment, (∀ a ∈ r, P a) →
      ∀ a ∈ (if h2 : 0 < i ∧ (directions i j).testBit 1 ∧ r.length < max_paths then
          find_all_paths_linear directions seq1 seq2 max_paths (i - 1) j
            ((i, j, seq1.getD (i - 1) ' ', '-') :: p) r
        else r), P a := by
    intro r hr
    by_cases h2 : 0 < i ∧ (directions i j).testBit 1 ∧ r.length < max_paths
    · simp only [dif_pos h2]
      exact fap_mem_prop P Inv directions seq1 seq2 max_paths hbase hdiag hup
        hleft (i - 1) j _ r (hup i j p hInv h2.1 h2.2.1) hr
    · simp only [dif_neg h2]; exact hr
  have cont1 : ∀ a ∈ (if h1 : 0 < i ∧ 0 < j ∧ (directions i j).testBit 0 then
      find_all_paths_linear directions seq1 seq2 max_paths (i - 1) (j - 1)
        ((i, j, seq1.getD (i - 1) ' ', seq2.getD (j - 1) ' ') :: p) results
    else results), P a := by
    by_cases h1 : 0 < i ∧ 0 < j ∧ (directions i j).testBit 0
    · simp only [dif_pos h1]
      exact fap_mem_prop P Inv directions seq1 seq2 max_paths hbase hdiag hup
        hleft (i - 1) (j - 1) _ results (hdiag i j p hInv h1.1 h1.2.1 h1.2.2)
        hres
    · simp only [dif_neg h1]; exact hres
  exact cont3 _ (cont2 _ cont1)
  termination_by (i, j)
  decreasing_by
    · exact Prod.Lex.right' _ (by omega) (by omega)
    · exact Prod.Lex.left _ _ (by omega)
    · exact Prod.Lex.left _ _ (by omega)


theorem dirs_zero_zero (seq1 seq2 : List Char) (scorer : Char → Char → ℚ)
    (gap : ℚ) : dirs seq1 seq2 scorer gap 0 0 = 0 := by
  simp [dirs]

theorem dirs_succ_zero (seq1 seq2 : List Char) (scorer : Char → Char → ℚ)
    (gap : ℚ) (i : Nat) : dirs seq1 seq2 scorer gap (i + 1) 0 = 2 := by
  simp [dirs]

theorem dirs_zero_succ (seq1 seq2 : List Char) (scorer : Char → Char → ℚ)
    (gap : ℚ) (j : Nat) : dirs seq1 seq2 scorer gap 0 (j + 1) = 4 := by
  simp [dirs]

/-- A recorded DIAG move only occurs at interior cells, and along it the cell
score is the predecessor score plus the character score. -/
theorem M_step_diag (seq1 seq2 : List Char) (scorer : Char → Char → ℚ)
    (gap : ℚ) (i j : Nat)
    (h : (dirs seq1 seq2 scorer gap i j).testBit 0) :
    0 < i ∧ 0 < j ∧
      M seq1 seq2 scorer gap i j = M seq1 seq2 scorer gap (i - 1) (j - 1) +
        scorer (seq1.getD (i - 1) ' ') (seq2.getD (j - 1) ' ') := by
  match i, j with
  | 0, 0 => rw [dirs_zero_zero] at h; exact absurd h (by decide)
  | i + 1, 0 => rw [dirs_succ_zero] at h; exact absurd h (by decide)
  | 0, j + 1 => rw [dirs_zero_succ] at h; exact absurd h (by decide)
  | i + 1, j + 1 =>
    rw [dirs_interior, rod_three_bit0] at h
    refine ⟨Nat.succ_pos _, Nat.succ_pos _, ?_⟩
    rw [M_interior, bestVal, ← h.1]
    simp [diagVal]

/-- A recorded UP move only occurs at cells with `i > 0`, and along it the
cell score is the predecessor score plus the gap penalty. -/
theorem M_step_up (seq1 seq2 : List Char) (scorer : Char → Char → ℚ)
    (gap : ℚ) (i j : Nat)
    (h : (dirs seq1 seq2 scorer gap i j).testBit 1) :
    0 < i ∧
      M seq1 seq2 scorer gap i j = M seq1 seq2 scorer gap (i - 1) j + gap := by
  match i, j with
  | 0, 0 => rw [dirs_zero_zero] at h; exact absurd h (by decide)
  | 0, j + 1 => rw [dirs_zero_succ] at h; exact absurd h (by decide)
  | i + 1, 0 =>
    refine ⟨Nat.succ_pos _, ?_⟩
    simpa using M_succ_zero seq1 seq2 scorer gap i
  | i + 1, j + 1 =>
    rw [dirs_interior, rod_three_bit1] at h
    refine ⟨Nat.succ_pos _, ?_⟩
    rw [M_interior, bestVal, ← h.1]
    simp [upVal]

/-- A recorded LEFT move only occurs at cells with `j > 0`, and along it the
cell score is the predecessor score plus the gap penalty. -/
theorem M_step_left (seq1 seq2 : List Char) (scorer : Char → Char → ℚ)
    (gap : ℚ) (i j : Nat)
    (h : (dirs seq1 seq2 scorer gap i j).testBit 2) :
    0 < j ∧
      M seq1 seq2 scorer gap i j = M seq1 seq2 scorer gap i (j - 1) + gap := by
  match i, j with
  | 0, 0 => rw [dirs_zero_zero] at h; exact absurd h (by decide)
  | i + 1, 0 => rw [dirs_succ_zero] at h; exact absurd h (by decide)
  | 0, j + 1 =>
    refine ⟨Nat.succ_pos _, ?_⟩
    simpa using M_zero_succ seq1 seq2 scorer gap j
  | i + 1, j + 1 =>
    rw [dirs_interior, rod_three_bit2] at h
    refine ⟨Nat.succ_pos _, ?_⟩
    rw [M_interior, bestVal, ← h.1]
    simp [leftVal]


/-- Entry `(i,j)` of the returned score matrix is the filled DP value. -/
theorem matrices_entry (seq1 seq2 : List Char) (scorer : Char → Char → ℚ)
    (gap : ℚ) (max_paths i j : Nat) (hi : i ≤ seq1.length)
    (hj : j ≤ seq2.length) :
    (((needleman_wunsch_linear seq1 seq2 scorer gap max_paths).matrices.m).getD
        i []).getD j 0 = M seq1 seq2 scorer gap i j := by
  have h1 : (List.range (seq1.length + 1))[i]? = some i :=
    List.getElem?_range (by omega)
  have h2 : (List.range (seq2.length + 1))[j]? = some j :=
    List.getElem?_range (by omega)
  simp [needleman_wunsch_linear, List.getD_eq_getElem?_getD, List.getElem?_map,
    h1, h2]

theorem pathLast_push (n m i j : Nat) (c1 c2 : Char)
    (p : List (Nat × Nat × Char × Char))
    (h1 : p = [] → i = n ∧ j = m)
    (h2 : p ≠ [] → ((⟨0, 0⟩ :: p.map fun s => (⟨s.1, s.2.1⟩ : PathStep)).getLast?
      = some ⟨n, m⟩)) :
    ((⟨0, 0⟩ :: ((i, j, c1, c2) :: p).map fun s => (⟨s.1, s.2.1⟩ : PathStep)).getLast?
      = some ⟨n, m⟩) := by
  match p with
  | [] =>
    obtain ⟨rfl, rfl⟩ := h1 rfl
    simp
  | x :: xs =>
    have := h2 (by simp)
    rw [List.map_cons, List.getLast?_cons_cons]
    rw [List.map_cons, List.getLast?_cons_cons] at this ⊢
    exact this

/-- C7: for every input, the returned score equals `matrix[n][m]`, and every
returned alignment's coordinate path starts at `(0,0)` and ends at `(n,m)`. -/
theorem claim_C7_score_and_endpoints (seq1 seq2 : List Char)
    (scorer : Char → Char → ℚ) (gap : ℚ) (max_paths : Nat) :
    (needleman_wunsch_linear seq1 seq2 scorer gap max_paths).score =
      (((needleman_wunsch_linear seq1 seq2 scorer gap max_paths).matrices.m).getD
        seq1.length []).getD seq2.length 0 ∧
    ∀ a ∈ (needleman_wunsch_linear seq1 seq2 scorer gap max_paths).alignments,
      a.path.head? = some ⟨0, 0⟩ ∧
        a.path.getLast? = some ⟨seq1.length, seq2.length⟩ := by
  constructor
  · rw [matrices_entry seq1 seq2 scorer gap max_paths _ _ le_rfl le_rfl]
    simp [needleman_wunsch_linear]
  · simp only [needleman_wunsch_linear]
    refine fap_mem_prop _
      (fun i j p => (p = [] → i = seq1.length ∧ j = seq2.length) ∧
        (p ≠ [] → ((⟨0, 0⟩ :: p.map fun s => (⟨s.1, s.2.1⟩ : PathStep)).getLast?
          = some ⟨seq1.length, seq2.length⟩)))
      _ _ _ _ ?_ ?_ ?_ ?_ _ _ _ _
      ⟨fun _ => ⟨rfl, rfl⟩, fun h => absurd rfl h⟩ (by simp)
    · intro p hInv
      constructor
      · simp [buildAlignment]
      · match p with
        | [] =>
          obtain ⟨h0, h1⟩ := hInv.1 rfl
          simp [buildAlignment, ← h0, ← h1]
        | x :: xs => exact hInv.2 (by simp)
    · intro i j p hInv _ _ _
      exact ⟨fun h => absurd h (by simp), fun _ =>
        pathLast_push _ _ _ _ _ _ p hInv.1 hInv.2⟩
    · intro i j p hInv _ _
      exact ⟨fun h => absurd h (by simp), fun _ =>
        pathLast_push _ _ _ _ _ _ p hInv.1 hInv.2⟩
    · intro i j p hInv _ _
      exact ⟨fun h => absurd h (by simp), fun _ =>
        pathLast_push _ _ _ _ _ _ p hInv.1 hInv.2⟩


theorem M_zero_zero (seq1 seq2 : List Char) (scorer : Char → Char → ℚ)
    (gap : ℚ) : M seq1 seq2 scorer gap 0 0 = 0 := by
  rw [M]

/-- Per-column contribution when re-scoring an alignment, as the spec puts
it: the gap penalty when either column holds the gap symbol `-`, otherwise
the scorer applied to the two characters. -/
def columnScore (scorer : Char → Char → ℚ) (gap : ℚ) (c1 c2 : Char) : ℚ :=
  if c1 = '-' ∨ c2 = '-' then gap else scorer c1 c2

/-- Re-scoring of an alignment: the sum of the per-column contributions of
its two aligned strings. -/
def rescore (scorer : Char → Char → ℚ) (gap : ℚ) (a : Alignment) : ℚ :=
  ((a.aligned_seq1.zip a.aligned_seq2).map fun p =>
    columnScore scorer gap p.1 p.2).sum

/-- Total contribution of the accumulated traceback stack. -/
def pathCost (scorer : Char → Char → ℚ) (gap : ℚ)
    (p : List (Nat × Nat × Char × Char)) : ℚ :=
  (p.map fun s => columnScore scorer gap s.2.2.1 s.2.2.2).sum

theorem rescore_buildAlignment (scorer : Char → Char → ℚ) (gap : ℚ)
    (p : List (Nat × Nat × Char × Char)) :
    rescore scorer gap (buildAlignment p) = pathCost scorer gap p := by
  simp only [rescore, buildAlignment, pathCost, List.zip_map', List.map_map]
  rfl

theorem pathCost_cons (scorer : Char → Char → ℚ) (gap : ℚ)
    (s : Nat × Nat × Char × Char) (p : List (Nat × Nat × Char × Char)) :
    pathCost scorer gap (s :: p) =
      columnScore scorer gap s.2.2.1 s.2.2.2 + pathCost scorer gap p := by
  simp [pathCost]

theorem getD_ne_dash {l : List Char} (h : '-' ∉ l) (k : Nat) :
    l.getD k ' ' ≠ '-' := by
  by_cases hk : k < l.length
  · rw [List.getD_eq_getElem _ _ hk]
    intro he
    exact h (he ▸ List.getElem_mem hk)
  · rw [List.getD_eq_default _ _ (by omega)]
    decide

/-- C3 (amended): provided neither input sequence contains the gap symbol
`-`, summing the per-column contributions of the two aligned strings of any
returned alignment — the scorer on the two characters when both columns hold
characters, the gap penalty when either column holds `-` — equals the
returned score. -/
theorem claim_C3_rescore_eq_score (seq1 seq2 : List Char)
    (scorer : Char → Char → ℚ) (gap : ℚ) (max_paths : Nat)
    (h1 : '-' ∉ seq1) (h2 : '-' ∉ seq2) :
    ∀ a ∈ (needleman_wunsch_linear seq1 seq2 scorer gap max_paths).alignments,
      rescore scorer gap a =
        (needleman_wunsch_linear seq1 seq2 scorer gap max_paths).score := by
  simp only [needleman_wunsch_linear]
  refine fap_mem_prop _
    (fun i j p => M seq1 seq2 scorer gap i j + pathCost scorer gap p =
      M seq1 seq2 scorer gap seq1.length seq2.length)
    _ _ _ _ ?_ ?_ ?_ ?_ _ _ _ _ ?_ (by simp)
  · intro p hInv
    rw [rescore_buildAlignment]
    rw [M_zero_zero, zero_add] at hInv
    exact hInv
  · intro i j p hInv hi hj hbit
    obtain ⟨_, _, hstep⟩ := M_step_diag seq1 seq2 scorer gap i j hbit
    rw [pathCost_cons]
    have hcol : columnScore scorer gap (seq1.getD (i - 1) ' ')
        (seq2.getD (j - 1) ' ') =
        scorer (seq1.getD (i - 1) ' ') (seq2.getD (j - 1) ' ') := by
      rw [columnScore, if_neg]
      push_neg
      exact ⟨getD_ne_dash h1 _, getD_ne_dash h2 _⟩
    rw [hcol] at *
    rw [← hInv, hstep]
    ring
  · intro i j p hInv hi hbit
    obtain ⟨_, hstep⟩ := M_step_up seq1 seq2 scorer gap i j hbit
    rw [pathCost_cons]
    have hcol : columnScore scorer gap (seq1.getD (i - 1) ' ') '-' = gap := by
      rw [columnScore, if_pos (Or.inr rfl)]
    rw [hcol, ← hInv, hstep]
    ring
  · intro i j p hInv hj hbit
    obtain ⟨_, hstep⟩ := M_step_left seq1 seq2 scorer gap i j hbit
    rw [pathCost_cons]
    have hcol : columnScore scorer gap '-' (seq2.getD (j - 1) ' ') = gap := by
      rw [columnScore, if_pos (Or.inl rfl)]
    rw [hcol, ← hInv, hstep]
    ring
  · simp [pathCost]


/-- Full evaluation of the aligner on sequences that contain the gap symbol
itself: `seq1 = seq2 = "-"` under match = 5, mismatch = -4, gap penalty = -2,
`max_paths = 1`. -/
theorem nw_dash_eval :
    (needleman_wunsch_linear ['-'] ['-'] (simpleScorer 5 (-4)) (-2) 1).alignments
      = [⟨['-'], ['-'], [⟨0, 0⟩, ⟨1, 1⟩]⟩] ∧
    (needleman_wunsch_linear ['-'] ['-'] (simpleScorer 5 (-4)) (-2) 1).score = 5 := by
  have hdir : dirs ['-'] ['-'] (simpleScorer 5 (-4)) (-2) 1 1 = 1 := by
    have h := dirs_interior ['-'] ['-'] (simpleScorer 5 (-4)) (-2) 0 0
    norm_num [diagVal, upVal, leftVal, M, simpleScorer] at h
    rw [h]; decide
  constructor
  · show find_all_paths_linear (dirs ['-'] ['-'] (simpleScorer 5 (-4)) (-2))
      ['-'] ['-'] 1 1 1 [] [] = _
    rw [find_all_paths_linear]
    norm_num [hdir]
    rw [find_all_paths_linear]
    norm_num [buildAlignment]
  · show M ['-'] ['-'] (simpleScorer 5 (-4)) (-2) 1 1 = 5
    norm_num [M, simpleScorer]

/-- Pushing the next consumed character of a gap-free sequence onto the
front of an aligned string preserves the gap-deletion invariant. -/
theorem filter_dash_push {l : List Char} (h : '-' ∉ l) {i : Nat} (hi : 0 < i)
    (hle : i ≤ l.length) {rest : List Char}
    (hrest : rest.filter (· != '-') = l.drop i) :
    (l.getD (i - 1) ' ' :: rest).filter (· != '-') = l.drop (i - 1) := by
  have hi1 : i - 1 < l.length := by omega
  have hdrop : l.drop (i - 1) = l[i - 1] :: l.drop i := by
    have h' := List.drop_eq_getElem_cons hi1
    rwa [show i - 1 + 1 = i from by omega] at h'
  rw [List.filter_cons, if_pos]
  · rw [List.getD_eq_getElem _ _ hi1, hrest, hdrop]
  · simp only [bne_iff_ne, ne_eq]
    rw [List.getD_eq_getElem _ _ hi1]
    intro he
    exact h (he ▸ List.getElem_mem hi1)

/-- C3 counterexample: with `seq1 = seq2 = "-"` the single returned
alignment re-scores to the gap penalty (both columns hold `-`), not to the
returned score (the scorer's match value for `-` vs `-`). -/
theorem claim_C3_counterexample :
    ¬ ∀ a ∈ (needleman_wunsch_linear ['-'] ['-'] (simpleScorer 5 (-4))
        (-2) 1).alignments,
      rescore (simpleScorer 5 (-4)) (-2) a =
        (needleman_wunsch_linear ['-'] ['-'] (simpleScorer 5 (-4))
          (-2) 1).score := by
  rw [nw_dash_eval.1, nw_dash_eval.2]
  intro h
  have hmem := h ⟨['-'], ['-'], [⟨0, 0⟩, ⟨1, 1⟩]⟩ (by simp)
  have hr : rescore (simpleScorer 5 (-4)) (-2)
      ⟨['-'], ['-'], [⟨0, 0⟩, ⟨1, 1⟩]⟩ = -2 := by
    norm_num [rescore, columnScore]
  rw [hr] at hmem
  norm_num at hmem

/-- C10 counterexample: with `seq1 = seq2 = "-"` deleting the gap symbol
from the aligned strings of the single returned alignment yields the empty
string, not the input sequence `"-"`. -/
theorem claim_C10_counterexample :
    ¬ ∀ a ∈ (needleman_wunsch_linear ['-'] ['-'] (simpleScorer 5 (-4))
        (-2) 1).alignments,
      a.aligned_seq1.length = a.aligned_seq2.length ∧
      a.aligned_seq1.filter (· != '-') = ['-'] ∧
      a.aligned_seq2.filter (· != '-') = ['-'] := by
  rw [nw_dash_eval.1]
  intro h
  have hmem := (h ⟨['-'], ['-'], [⟨0, 0⟩, ⟨1, 1⟩]⟩ (by simp)).2.1
  simp at hmem

/-- C10 (amended): for every input, the two aligned strings of every
returned alignment have equal length; and, provided neither input sequence
contains the gap symbol `-`, deleting every `-` from `aligned_seq1` yields
`seq1` and deleting every `-` from `aligned_seq2` yields `seq2`. -/
theorem claim_C10_gap_deletion (seq1 seq2 : List Char)
    (scorer : Char → Char → ℚ) (gap : ℚ) (max_paths : Nat) :
    (∀ a ∈ (needleman_wunsch_linear seq1 seq2 scorer gap max_paths).alignments,
      a.aligned_seq1.length = a.aligned_seq2.length) ∧
    ('-' ∉ seq1 → '-' ∉ seq2 →
      ∀ a ∈ (needleman_wunsch_linear seq1 seq2 scorer gap max_paths).alignments,
        a.aligned_seq1.filter (· != '-') = seq1 ∧
        a.aligned_seq2.filter (· != '-') = seq2) := by
  constructor
  · simp only [needleman_wunsch_linear]
    refine fap_mem_prop _ (fun _ _ _ => True) _ _ _ _ ?_ ?_ ?_ ?_ _ _ _ _
      trivial (by simp)
    · intro p _
      simp [buildAlignment]
    · intro _ _ _ _ _ _ _
      trivial
    · intro _ _ _ _ _ _
      trivial
    · intro _ _ _ _ _ _
      trivial
  · intro h1 h2
    simp only [needleman_wunsch_linear]
    refine fap_mem_prop _
      (fun i j p => i ≤ seq1.length ∧ j ≤ seq2.length ∧
        (p.map fun s => s.2.2.1).filter (· != '-') = seq1.drop i ∧
        (p.map fun s => s.2.2.2).filter (· != '-') = seq2.drop j)
      _ _ _ _ ?_ ?_ ?_ ?_ _ _ _ _
      ⟨le_rfl, le_rfl, by simp, by simp⟩ (by simp)
    · intro p hInv
      obtain ⟨-, -, ha, hb⟩ := hInv
      simp only [List.drop_zero] at ha hb
      exact ⟨by simpa [buildAlignment] using ha,
        by simpa [buildAlignment] using hb⟩
    · intro i j p hInv hi hj _
      obtain ⟨hle1, hle2, ha, hb⟩ := hInv
      refine ⟨by omega, by omega, ?_, ?_⟩
      · rw [List.map_cons]
        exact filter_dash_push h1 hi hle1 ha
      · rw [List.map_cons]
        exact filter_dash_push h2 hj hle2 hb
    · intro i j p hInv hi _
      obtain ⟨hle1, hle2, ha, hb⟩ := hInv
      refine ⟨by omega, hle2, ?_, ?_⟩
      · rw [List.map_cons]
        exact filter_dash_push h1 hi hle1 ha
      · rw [List.map_cons, List.filter_cons, if_neg (by simp)]
        exact hb
    · intro i j p hInv hj _
      obtain ⟨hle1, hle2, ha, hb⟩ := hInv
      refine ⟨hle1, by omega, ?_, ?_⟩
      · rw [List.map_cons, List.filter_cons, if_neg (by simp)]
        exact ha
      · rw [List.map_cons]
        exact filter_dash_push h2 hj hle2 hb


/-- C1: at every interior cell `(i,j)` (`i>0`, `j>0`) the direction mask
contains exactly the bits of the moves DIAG=1 / UP=2 / LEFT=4 that pass the
double filter: the move's transition value equals the maximum of the three
transition values (exact equality), and, among the tied moves, the move's
predecessor score equals the maximum predecessor score of the tied moves
(stated as: it dominates the predecessor score of every tied move, which is
equivalent since the move's own predecessor is among the tied ones). -/
theorem claim_C1_direction_mask (seq1 seq2 : List Char)
    (scorer : Char → Char → ℚ) (gap : ℚ) (i j : Nat)
    (hi : 0 < i) (hj : 0 < j) :
    ((dirs seq1 seq2 scorer gap i j).testBit 0 ↔
      diagVal seq1 seq2 scorer gap i j = bestVal seq1 seq2 scorer gap i j ∧
      (upVal seq1 seq2 scorer gap i j = bestVal seq1 seq2 scorer gap i j →
        M seq1 seq2 scorer gap (i - 1) j ≤
          M seq1 seq2 scorer gap (i - 1) (j - 1)) ∧
      (leftVal seq1 seq2 scorer gap i j = bestVal seq1 seq2 scorer gap i j →
        M seq1 seq2 scorer gap i (j - 1) ≤
          M seq1 seq2 scorer gap (i - 1) (j - 1))) ∧
    ((dirs seq1 seq2 scorer gap i j).testBit 1 ↔
      upVal seq1 seq2 scorer gap i j = bestVal seq1 seq2 scorer gap i j ∧
      (diagVal seq1 seq2 scorer gap i j = bestVal seq1 seq2 scorer gap i j →
        M seq1 seq2 scorer gap (i - 1) (j - 1) ≤
          M seq1 seq2 scorer gap (i - 1) j) ∧
      (leftVal seq1 seq2 scorer gap i j = bestVal seq1 seq2 scorer gap i j →
        M seq1 seq2 scorer gap i (j - 1) ≤
          M seq1 seq2 scorer gap (i - 1) j)) ∧
    ((dirs seq1 seq2 scorer gap i j).testBit 2 ↔
      leftVal seq1 seq2 scorer gap i j = bestVal seq1 seq2 scorer gap i j ∧
      (diagVal seq1 seq2 scorer gap i j = bestVal seq1 seq2 scorer gap i j →
        M seq1 seq2 scorer gap (i - 1) (j - 1) ≤
          M seq1 seq2 scorer gap i (j - 1)) ∧
      (upVal seq1 seq2 scorer gap i j = bestVal seq1 seq2 scorer gap i j →
        M seq1 seq2 scorer gap (i - 1) j ≤
          M seq1 seq2 scorer gap i (j - 1))) := by
  match i, j, hi, hj with
  | i + 1, j + 1, _, _ =>
    rw [dirs_interior]
    simp only [Nat.add_sub_cancel, bestVal]
    exact ⟨rod_three_bit0 _ _ _ _ _ _, rod_three_bit1 _ _ _ _ _ _,
      rod_three_bit2 _ _ _ _ _ _⟩

/-- C5: the direction mask is nonzero at every cell other than `(0,0)`, and
zero at cell `(0,0)`. -/
theorem claim_C5_mask_nonzero (seq1 seq2 : List Char)
    (scorer : Char → Char → ℚ) (gap : ℚ) (i j : Nat)
    (h : ¬(i = 0 ∧ j = 0)) :
    dirs seq1 seq2 scorer gap i j ≠ 0 ∧
      dirs seq1 seq2 scorer gap 0 0 = 0 := by
  refine ⟨?_, dirs_zero_zero seq1 seq2 scorer gap⟩
  match i, j with
  | 0, 0 => exact absurd ⟨rfl, rfl⟩ h
  | i + 1, 0 => rw [dirs_succ_zero]; decide
  | 0, j + 1 => rw [dirs_zero_succ]; decide
  | i + 1, j + 1 => rw [dirs_interior]; exact rod_three_ne_zero _ _ _ _ _ _

/-- C8: with `maxPaths = 0` the aligner returns no alignments, while the
score and the score matrix are the same as with any other path limit. -/
theorem claim_C8_max_paths_zero (seq1 seq2 : List Char)
    (scorer : Char → Char → ℚ) (gap : ℚ) (k : Nat) :
    (needleman_wunsch_linear seq1 seq2 scorer gap 0).alignments = [] ∧
    (needleman_wunsch_linear seq1 seq2 scorer gap 0).score =
      (needleman_wunsch_linear seq1 seq2 scorer gap k).score ∧
    (needleman_wunsch_linear seq1 seq2 scorer gap 0).matrices =
      (needleman_wunsch_linear seq1 seq2 scorer gap k).matrices := by
  refine ⟨?_, rfl, rfl⟩
  show find_all_paths_linear _ _ _ 0 _ _ [] [] = []
  rw [find_all_paths_linear]
  simp

/-- C2: the score matrix satisfies the border initialization
(`matrix[i][0] = i·gap` with direction UP only, `matrix[0][j] = j·gap` with
direction LEFT only) and the standard recurrence at interior cells. -/
theorem claim_C2_matrix_recurrence (seq1 seq2 : List Char)
    (scorer : Char → Char → ℚ) (gap : ℚ) (max_paths : Nat) :
    (∀ i, 0 < i → i ≤ seq1.length →
      (((needleman_wunsch_linear seq1 seq2 scorer gap max_paths).matrices.m).getD
          i []).getD 0 0 = (i : ℚ) * gap ∧
        dirs seq1 seq2 scorer gap i 0 = 2) ∧
    (∀ j, 0 < j → j ≤ seq2.length →
      (((needleman_wunsch_linear seq1 seq2 scorer gap max_paths).matrices.m).getD
          0 []).getD j 0 = (j : ℚ) * gap ∧
        dirs seq1 seq2 scorer gap 0 j = 4) ∧
    (∀ i j, 0 < i → i ≤ seq1.length → 0 < j → j ≤ seq2.length →
      (((needleman_wunsch_linear seq1 seq2 scorer gap max_paths).matrices.m).getD
          i []).getD j 0 =
        max (max
          ((((needleman_wunsch_linear seq1 seq2 scorer gap max_paths).matrices.m).getD
              (i - 1) []).getD (j - 1) 0 +
            scorer (seq1.getD (i - 1) ' ') (seq2.getD (j - 1) ' '))
          ((((needleman_wunsch_linear seq1 seq2 scorer gap max_paths).matrices.m).getD
              (i - 1) []).getD j 0 + gap))
          ((((needleman_wunsch_linear seq1 seq2 scorer gap max_paths).matrices.m).getD
              i []).getD (j - 1) 0 + gap)) := by
  refine ⟨?_, ?_, ?_⟩
  · intro i hi hile
    rw [matrices_entry seq1 seq2 scorer gap max_paths _ _ hile (by omega)]
    match i, hi with
    | i + 1, _ =>
      refine ⟨?_, dirs_succ_zero seq1 seq2 scorer gap i⟩
      rw [M]
      push_cast
      ring
  · intro j hj hjle
    rw [matrices_entry seq1 seq2 scorer gap max_paths _ _ (by omega) hjle]
    match j, hj with
    | j + 1, _ =>
      refine ⟨?_, dirs_zero_succ seq1 seq2 scorer gap j⟩
      rw [M]
      push_cast
      ring
  · intro i j hi hile hj hjle
    rw [matrices_entry seq1 seq2 scorer gap max_paths _ _ hile hjle,
      matrices_entry seq1 seq2 scorer gap max_paths _ _ (by omega) (by omega),
      matrices_entry seq1 seq2 scorer gap max_paths _ _ (by omega) hjle,
      matrices_entry seq1 seq2 scorer gap max_paths _ _ hile (by omega)]
    match i, j, hi, hj with
    | i + 1, j + 1, _, _ =>
      rw [M_interior]
      simp only [Nat.add_sub_cancel, bestVal, diagVal, upVal, leftVal]


/-- The traceback only ever appends to the shared results vector. -/
theorem fap_extends (directions : Nat → Nat → Nat) (seq1 seq2 : List Char)
    (max_paths : Nat) (i j : Nat) (p : List (Nat × Nat × Char × Char))
    (results : List Alignment) :
    results <+: find_all_paths_linear directions seq1 seq2 max_paths i j p
      results := by
  rw [find_all_paths_linear]
  by_cases hstop : max_paths ≤ results.length
  · simp only [hstop, if_true]
    exact List.prefix_rfl
  simp only [hstop, if_false]
  by_cases h00 : i = 0 ∧ j = 0
  · simp only [h00, if_true]
    exact List.prefix_append results _
  simp only [h00, if_false]
  have cont3 : ∀ r : List Alignment, results <+: r →
      results <+: (if h3 : 0 < j ∧ (directions i j).testBit 2 ∧
          r.length < max_paths then
        find_all_paths_linear directions seq1 seq2 max_paths i (j - 1)
          ((i, j, '-', seq2.getD (j - 1) ' ') :: p) r
      else r) := by
    intro r hr
    by_cases h3 : 0 < j ∧ (directions i j).testBit 2 ∧ r.length < max_paths
    · simp only [dif_pos h3]
      exact hr.trans (fap_extends directions seq1 seq2 max_paths i (j - 1) _ r)
    · simp only [dif_neg h3]; exact hr
  have cont2 : ∀ r : List Alignment, results <+: r →
      results <+: (if h2 : 0 < i ∧ (directions i j).testBit 1 ∧
          r.length < max_paths then
        find_all_paths_linear directions seq1 seq2 max_paths (i - 1) j
          ((i, j, seq1.getD (i - 1) ' ', '-') :: p) r
      else r) := by
    intro r hr
    by_cases h2 : 0 < i ∧ (directions i j).testBit 1 ∧ r.length < max_paths
    · simp only [dif_pos h2]
      exact hr.trans (fap_extends directions seq1 seq2 max_paths (i - 1) j _ r)
    · simp only [dif_neg h2]; exact hr
  have cont1 : results <+: (if h1 : 0 < i ∧ 0 < j ∧
      (directions i j).testBit 0 then
    find_all_paths_linear directions seq1 seq2 max_paths (i - 1) (j - 1)
      ((i, j, seq1.getD (i - 1) ' ', seq2.getD (j - 1) ' ') :: p) results
  else results) := by
    by_cases h1 : 0 < i ∧ 0 < j ∧ (directions i j).testBit 0
    · simp only [dif_pos h1]
      exact fap_extends directions seq1 seq2 max_paths (i - 1) (j - 1) _ results
    · simp only [dif_neg h1]
      exact List.prefix_rfl
  exact cont3 _ (cont2 _ cont1)
  termination_by (i, j)
  decreasing_by
    · exact Prod.Lex.right' _ (by omega) (by omega)
    · exact Prod.Lex.left _ _ (by omega)
    · exact Prod.Lex.left _ _ (by omega)

/-- The traceback never grows the results vector beyond `max_paths`. -/
theorem fap_length_le (directions : Nat → Nat → Nat) (seq1 seq2 : List Char)
    (max_paths : Nat) (i j : Nat) (p : List (Nat × Nat × Char × Char))
    (results : List Alignment) (hlen : results.length ≤ max_paths) :
    (find_all_paths_linear directions seq1 seq2 max_paths i j p
      results).length ≤ max_paths := by
  rw [find_all_paths_linear]
  by_cases hstop : max_paths ≤ results.length
  · rw [if_pos hstop]; exact hlen
  rw [if_neg hstop]
  by_cases h00 : i = 0 ∧ j = 0
  · rw [if_pos h00, List.length_append]
    simp only [List.length_singleton]
    omega
  rw [if_neg h00]
  have cont3 : ∀ r : List Alignment, r.length ≤ max_paths →
      (if h3 : 0 < j ∧ (directions i j).testBit 2 ∧
          r.length < max_paths then
        find_all_paths_linear directions seq1 seq2 max_paths i (j - 1)
          ((i, j, '-', seq2.getD (j - 1) ' ') :: p) r
      else r).length ≤ max_paths := by
    intro r hr
    by_cases h3 : 0 < j ∧ (directions i j).testBit 2 ∧ r.length < max_paths
    · simp only [dif_pos h3]
      exact fap_length_le directions seq1 seq2 max_paths i (j - 1) _ r hr
    · simp only [dif_neg h3]; exact hr
  have cont2 : ∀ r : List Alignment, r.length ≤ max_paths →
      (if h2 : 0 < i ∧ (directions i j).testBit 1 ∧
          r.length < max_paths then
        find_all_paths_linear directions seq1 seq2 max_paths (i - 1) j
          ((i, j, seq1.getD (i - 1) ' ', '-') :: p) r
      else r).length ≤ max_paths := by
    intro r hr
    by_cases h2 : 0 < i ∧ (directions i j).testBit 1 ∧ r.length < max_paths
    · simp only [dif_pos h2]
      exact fap_length_le directions seq1 seq2 max_paths (i - 1) j _ r hr
    · simp only [dif_neg h2]; exact hr
  have cont1 : (if h1 : 0 < i ∧ 0 < j ∧ (directions i j).testBit 0 then
      find_all_paths_linear directions seq1 seq2 max_paths (i - 1) (j - 1)
        ((i, j, seq1.getD (i - 1) ' ', seq2.getD (j - 1) ' ') :: p) results
    else results).length ≤ max_paths := by
    by_cases h1 : 0 < i ∧ 0 < j ∧ (directions i j).testBit 0
    · simp only [dif_pos h1]
      exact fap_length_le directions seq1 seq2 max_paths (i - 1) (j - 1) _
        results hlen
    · simp only [dif_neg h1]; exact hlen
  exact cont3 _ (cont2 _ cont1)
  termination_by (i, j)
  decreasing_by
    · exact Prod.Lex.right' _ (by omega) (by omega)
    · exact Prod.Lex.left _ _ (by omega)
    · exact Prod.Lex.left _ _ (by omega)


theorem take_eq_of_take {α : Type} {k : Nat} {l l' : List α}
    (h : l = l'.take k) (hlt : l.length < k) : l = l' := by
  subst h
  have h2 : l'.length < k := by
    have := List.length_take k l'
    omega
  exact List.take_of_length_le (le_of_lt h2)

theorem length_le_of_take {α : Type} {k : Nat} {l l' : List α}
    (h : l = l'.take k) (hk : k ≤ l.length) : k ≤ l'.length := by
  subst h
  have := List.length_take k l'
  omega

/-- Raising the path limit only extends the returned list: the run with
limit `k ≤ k'` returns exactly the first `k` elements of the run with
limit `k'`. -/
theorem fap_take (directions : Nat → Nat → Nat) (seq1 seq2 : List Char)
    (k k' : Nat) (hkk : k ≤ k') (i j : Nat)
    (p : List (Nat × Nat × Char × Char)) (rk rk' : List Alignment)
    (hlen : rk.length ≤ k) (hpre : rk = rk'.take k) :
    find_all_paths_linear directions seq1 seq2 k i j p rk =
      (find_all_paths_linear directions seq1 seq2 k' i j p rk').take k := by
  by_cases hfull : k ≤ rk.length
  · have hk'len : k ≤ rk'.length := length_le_of_take hpre hfull
    conv_lhs => rw [find_all_paths_linear]
    rw [if_pos hfull]
    obtain ⟨s, hs⟩ := fap_extends directions seq1 seq2 k' i j p rk'
    rw [← hs, List.take_append_of_le_length hk'len]
    exact hpre
  · push_neg at hfull
    have hrr : rk' = rk := (take_eq_of_take hpre hfull).symm
    subst hrr
    conv_lhs => rw [find_all_paths_linear]
    conv_rhs => rw [find_all_paths_linear]
    rw [if_neg (by omega : ¬ k ≤ rk'.length),
      if_neg (by omega : ¬ k' ≤ rk'.length)]
    by_cases h00 : i = 0 ∧ j = 0
    · rw [if_pos h00, if_pos h00,
        List.take_of_length_le (by rw [List.length_append]; simp; omega)]
    rw [if_neg h00, if_neg h00]
    have htake_rfl : ∀ r : List Alignment, r.length < k → r = r.take k :=
      fun r hr => (List.take_of_length_le (le_of_lt hr)).symm
    have stage3 : ∀ r r' : List Alignment, r = r'.take k → r.length ≤ k →
        (if h3 : 0 < j ∧ (directions i j).testBit 2 ∧ r.length < k then
          find_all_paths_linear directions seq1 seq2 k i (j - 1)
            ((i, j, '-', seq2.getD (j - 1) ' ') :: p) r
        else r) =
        (if h3 : 0 < j ∧ (directions i j).testBit 2 ∧ r'.length < k' then
          find_all_paths_linear directions seq1 seq2 k' i (j - 1)
            ((i, j, '-', seq2.getD (j - 1) ' ') :: p) r'
        else r').take k := by
      intro r r' hpre2 hlen2
      by_cases hs : 0 < j ∧ (directions i j).testBit 2
      · by_cases hlt : r.length < k
        · have hre : r' = r := (take_eq_of_take hpre2 hlt).symm
          subst hre
          rw [dif_pos ⟨hs.1, hs.2, hlt⟩, dif_pos ⟨hs.1, hs.2, by omega⟩]
          exact fap_take directions seq1 seq2 k k' hkk i (j - 1) _ r' r'
            hlen2 (htake_rfl r' hlt)
        · rw [dif_neg (by tauto)]
          by_cases hlt' : r'.length < k'
          · rw [dif_pos ⟨hs.1, hs.2, hlt'⟩]
            obtain ⟨s, hsapp⟩ := fap_extends directions seq1 seq2 k' i (j - 1)
              ((i, j, '-', seq2.getD (j - 1) ' ') :: p) r'
            rw [← hsapp,
              List.take_append_of_le_length (length_le_of_take hpre2 (by omega))]
            exact hpre2
          · rw [dif_neg (by tauto)]
            exact hpre2
      · rw [dif_neg (by tauto), dif_neg (by tauto)]
        exact hpre2
    have stage2 : ∀ r r' : List Alignment, r = r'.take k → r.length ≤ k →
        ((if h2 : 0 < i ∧ (directions i j).testBit 1 ∧ r.length < k then
          find_all_paths_linear directions seq1 seq2 k (i - 1) j
            ((i, j, seq1.getD (i - 1) ' ', '-') :: p) r
        else r) =
        (if h2 : 0 < i ∧ (directions i j).testBit 1 ∧ r'.length < k' then
          find_all_paths_linear directions seq1 seq2 k' (i - 1) j
            ((i, j, seq1.getD (i - 1) ' ', '-') :: p) r'
        else r').take k) ∧
        (if h2 : 0 < i ∧ (directions i j).testBit 1 ∧ r.length < k then
          find_all_paths_linear directions seq1 seq2 k (i - 1) j
            ((i, j, seq1.getD (i - 1) ' ', '-') :: p) r
        else r).length ≤ k := by
      intro r r' hpre2 hlen2
      by_cases hs : 0 < i ∧ (directions i j).testBit 1
      · by_cases hlt : r.length < k
        · have hre : r' = r := (take_eq_of_take hpre2 hlt).symm
          subst hre
          rw [dif_pos ⟨hs.1, hs.2, hlt⟩, dif_pos ⟨hs.1, hs.2, by omega⟩]
          exact ⟨fap_take directions seq1 seq2 k k' hkk (i - 1) j _ r' r'
              hlen2 (htake_rfl r' hlt),
            fap_length_le directions seq1 seq2 k (i - 1) j _ r' hlen2⟩
        · rw [dif_neg (by tauto)]
          by_cases hlt' : r'.length < k'
          · rw [dif_pos ⟨hs.1, hs.2, hlt'⟩]
            obtain ⟨s, hsapp⟩ := fap_extends directions seq1 seq2 k' (i - 1) j
              ((i, j, seq1.getD (i - 1) ' ', '-') :: p) r'
            refine ⟨?_, hlen2⟩
            rw [← hsapp,
              List.take_append_of_le_length (length_le_of_take hpre2 (by omega))]
            exact hpre2
          · rw [dif_neg (by tauto)]
            exact ⟨hpre2, hlen2⟩
      · rw [dif_neg (by tauto), dif_neg (by tauto)]
        exact ⟨hpre2, hlen2⟩
    have stage1 :
        ((if h1 : 0 < i ∧ 0 < j ∧ (directions i j).testBit 0 then
          find_all_paths_linear directions seq1 seq2 k (i - 1) (j - 1)
            ((i, j, seq1.getD (i - 1) ' ', seq2.getD (j - 1) ' ') :: p) rk'
        else rk') =
        (if h1 : 0 < i ∧ 0 < j ∧ (directions i j).testBit 0 then
          find_all_paths_linear directions seq1 seq2 k' (i - 1) (j - 1)
            ((i, j, seq1.getD (i - 1) ' ', seq2.getD (j - 1) ' ') :: p) rk'
        else rk').take k) ∧
        (if h1 : 0 < i ∧ 0 < j ∧ (directions i j).testBit 0 then
          find_all_paths_linear directions seq1 seq2 k (i - 1) (j - 1)
            ((i, j, seq1.getD (i - 1) ' ', seq2.getD (j - 1) ' ') :: p) rk'
        else rk').length ≤ k := by
      by_cases h1 : 0 < i ∧ 0 < j ∧ (directions i j).testBit 0
      · rw [dif_pos h1, dif_pos h1]
        exact ⟨fap_take directions seq1 seq2 k k' hkk (i - 1) (j - 1) _ rk' rk'
            hlen (htake_rfl rk' hfull),
          fap_length_le directions seq1 seq2 k (i - 1) (j - 1) _ rk' hlen⟩
      · rw [dif_neg h1, dif_neg h1]
        exact ⟨htake_rfl rk' hfull, hlen⟩
    obtain ⟨hrel1, hlen1⟩ := stage1
    obtain ⟨hrel2, hlen2⟩ := stage2 _ _ hrel1 hlen1
    exact stage3 _ _ hrel2 hlen2
  termination_by (i, j)
  decreasing_by
    · exact Prod.Lex.right' _ (by omega) (by omega)
    · exact Prod.Lex.left _ _ (by omega)
    · exact Prod.Lex.left _ _ (by omega)


/-- C6: the returned alignment list has length at most `maxPaths`, and for
limits `k ≤ k'` (all else fixed) the list returned with limit `k` is exactly
the first `k` elements of the list returned with limit `k'`, under the fixed
DIAG-then-UP-then-LEFT exploration order. -/
theorem claim_C6_bounded_prefix (seq1 seq2 : List Char)
    (scorer : Char → Char → ℚ) (gap : ℚ) (k k' : Nat) (hkk : k ≤ k') :
    (needleman_wunsch_linear seq1 seq2 scorer gap k).alignments.length ≤ k ∧
    (needleman_wunsch_linear seq1 seq2 scorer gap k).alignments =
      ((needleman_wunsch_linear seq1 seq2 scorer gap k').alignments).take k := by
  constructor
  · exact fap_length_le _ _ _ k _ _ [] [] (by simp)
  · exact fap_take _ _ _ k k' hkk _ _ [] [] [] (by simp) (by simp)

/-- The fifteen characters of the EDNAFULL alphabet (`matrices.rs:13-15`). -/
def ednafull_chars : List Char :=
  ['A', 'T', 'G', 'C', 'S', 'W', 'R', 'Y', 'K', 'M', 'B', 'V', 'H', 'D', 'N']

/-- The EDNAFULL score rows (`matrices.rs:19-35`): row `i`, column `j` is
the score of `ednafull_chars[i]` against `ednafull_chars[j]`.  The source
rows carry a sixteenth column that no loop index reaches (only the fifteen
alphabet characters are enumerated); it is kept verbatim here. -/
def ednafull_values : List (List ℚ) := [
  [ 5, -4, -4, -4, -4,  1,  1, -4, -4,  1, -4, -1, -1, -1, -2, -4],
  [-4,  5, -4, -4, -4,  1, -4,  1,  1, -4, -1, -4, -1, -1, -2,  5],
  [-4, -4,  5, -4,  1, -4,  1, -4,  1, -4, -1, -1, -4, -1, -2, -4],
  [-4, -4, -4,  5,  1, -4, -4,  1, -4,  1, -1, -1, -1, -4, -2, -4],
  [-4, -4,  1,  1, -1, -4, -2, -2, -2, -2, -1, -1, -3, -3, -1, -4],
  [ 1,  1, -4, -4, -4, -1, -2, -2, -2, -2, -3, -3, -1, -1, -1,  1],
  [ 1, -4,  1, -4, -2, -2, -1, -4, -2, -2, -3, -1, -3, -1, -1, -4],
  [-4,  1, -4,  1, -2, -2, -4, -1, -2, -2, -1, -3, -1, -3, -1,  1],
  [-4,  1,  1, -4, -2, -2, -2, -2, -1, -4, -1, -3, -3, -1, -1,  1],
  [ 1, -4, -4,  1, -2, -2, -2, -2, -4, -1, -3, -1, -1, -3, -1, -4],
  [-4, -1, -1, -1, -1, -3, -3, -1, -1, -3, -1, -2, -2, -2, -1, -1],
  [-1, -4, -1, -1, -1, -3, -1, -3, -3, -1, -2, -1, -2, -2, -1, -4],
  [-1, -1, -4, -1, -3, -1, -3, -1, -3, -1, -2, -2, -1, -2, -1, -1],
  [-1, -1, -1, -4, -3, -1, -1, -3, -1, -3, -2, -2, -2, -1, -1, -1],
  [-2, -2, -2, -2, -1, -1, -1, -1, -1, -1, -1, -1, -1, -1, -1, -2]]

/-- `get_ednafull_matrix` (`matrices.rs:12-51`): a map from ordered char
pairs to scores, with all four upper/lower case combinations inserted for
every pair of alphabet characters.  The Rust `HashMap` is modelled as an
association list; all inserted keys are distinct, so `find?` agrees with
`HashMap::get`. -/
def get_ednafull_matrix : List ((Char × Char) × ℚ) :=
  ednafull_chars.enum.flatMap fun ic =>
    ednafull_chars.enum.flatMap fun jc =>
      let v := (ednafull_values.getD ic.1 []).getD jc.1 0
      [((ic.2, jc.2), v), ((ic.2.toLower, jc.2), v),
       ((ic.2, jc.2.toLower), v), ((ic.2.toLower, jc.2.toLower), v)]

/-- `MatrixScorer::score` (`scoring.rs:31-37`): upper-case both characters,
look the pair up in the matrix, fall back to the default score. -/
def matrixScorer (matrix : List ((Char × Char) × ℚ)) (default_score : ℚ)
    (a b : Char) : ℚ :=
  ((matrix.find? fun e => e.1 == (a.toUpper, b.toUpper)).map
    fun e => e.2).getD default_score

/-- `available_matrices` (`matrices.rs:54-56`).  Rust `String`s are
modelled as `List Char`. -/
def available_matrices : List (List Char) :=
  [['E', 'D', 'N', 'A', 'F', 'U', 'L', 'L']]

/-- `get_matrix_by_name` (`matrices.rs:62-67`): case-insensitive match of
the name against the known registry. -/
def get_matrix_by_name (name : List Char) :
    Option (List ((Char × Char) × ℚ)) :=
  if name.map Char.toUpper = ['E', 'D', 'N', 'A', 'F', 'U', 'L', 'L'] then
    some get_ednafull_matrix
  else none

/-- The two request scoring configurations (`lib.rs:31-36`). -/
inductive ScoringConfig where
  | Simple (match_score mismatch : ℚ)
  | Matrix (matrix : List Char)

/-- Scorer selection in `run_alignment` (`lib.rs:109-122`).  On an unknown
matrix name the source calls `unwrap_or_else(|| panic!(...))`, aborting the
whole process; the abort is modelled as `none`. -/
def resolve_scorer : ScoringConfig → Option (Char → Char → ℚ)
  | ScoringConfig.Simple ms mm => some (simpleScorer ms mm)
  | ScoringConfig.Matrix name =>
    (get_matrix_by_name name).map fun mat => matrixScorer mat (-4)

/-- C4 (code evidence): the registry does not know `"NUC44"`, so the entry
point's scorer resolution reaches the `panic!` branch (modelled as `none`) —
the process aborts instead of returning a recoverable error.  The available
names are exactly `["EDNAFULL"]`. -/
theorem claim_C4_unknown_matrix_panics :
    get_matrix_by_name ['N', 'U', 'C', '4', '4'] = none ∧
    resolve_scorer (ScoringConfig.Matrix ['N', 'U', 'C', '4', '4']) = none ∧
    available_matrices = [['E', 'D', 'N', 'A', 'F', 'U', 'L', 'L']] := by
  have hnone : get_matrix_by_name ['N', 'U', 'C', '4', '4'] = none := by decide
  refine ⟨hnone, ?_, rfl⟩
  rw [resolve_scorer, hnone]
  rfl


theorem matrixScorer_upper_congr (m : List ((Char × Char) × ℚ)) (d : ℚ)
    {a a' b b' : Char} (h1 : a.toUpper = a'.toUpper)
    (h2 : b.toUpper = b'.toUpper) :
    matrixScorer m d a b = matrixScorer m d a' b' := by
  simp [matrixScorer, h1, h2]

theorem ednafull_case_fact : ∀ a ∈ ednafull_chars,
    a.toLower.toUpper = a.toUpper ∧ a.toUpper.toUpper = a.toUpper := by decide

set_option maxRecDepth 100000 in
set_option maxHeartbeats 4000000 in
theorem ednafull_sym : ∀ a ∈ ednafull_chars, ∀ b ∈ ednafull_chars,
    matrixScorer get_ednafull_matrix (-4) a b =
      matrixScorer get_ednafull_matrix (-4) b a := by decide

/-- C9: over the 15-symbol EDNAFULL alphabet the matrix-variant scorer is
symmetric, and case-insensitive across all lower/upper case variants. -/
theorem claim_C9_ednafull_symmetric_case_insensitive (a b : Char)
    (ha : a ∈ ednafull_chars) (hb : b ∈ ednafull_chars) :
    matrixScorer get_ednafull_matrix (-4) a b =
      matrixScorer get_ednafull_matrix (-4) b a ∧
    matrixScorer get_ednafull_matrix (-4) a.toLower b.toUpper =
      matrixScorer get_ednafull_matrix (-4) a.toUpper b.toUpper ∧
    matrixScorer get_ednafull_matrix (-4) a.toLower b.toLower =
      matrixScorer get_ednafull_matrix (-4) a.toUpper b.toUpper := by
  obtain ⟨hca1, hca2⟩ := ednafull_case_fact a ha
  obtain ⟨hcb1, hcb2⟩ := ednafull_case_fact b hb
  refine ⟨ednafull_sym a ha b hb, ?_, ?_⟩
  · exact matrixScorer_upper_congr _ _ (hca1.trans hca2.symm) rfl
  · exact matrixScorer_upper_congr _ _ (hca1.trans hca2.symm)
      (hcb1.trans hcb2.symm)


theorem claim_C1_witness :
    0 < 1 ∧ 0 < 1 ∧
    (((dirs ['A'] ['C'] (simpleScorer 5 (-4)) (-2) 1 1).testBit 0 ↔
      diagVal ['A'] ['C'] (simpleScorer 5 (-4)) (-2) 1 1 =
        bestVal ['A'] ['C'] (simpleScorer 5 (-4)) (-2) 1 1 ∧
      (upVal ['A'] ['C'] (simpleScorer 5 (-4)) (-2) 1 1 =
          bestVal ['A'] ['C'] (simpleScorer 5 (-4)) (-2) 1 1 →
        M ['A'] ['C'] (simpleScorer 5 (-4)) (-2) (1 - 1) 1 ≤
          M ['A'] ['C'] (simpleScorer 5 (-4)) (-2) (1 - 1) (1 - 1)) ∧
      (leftVal ['A'] ['C'] (simpleScorer 5 (-4)) (-2) 1 1 =
          bestVal ['A'] ['C'] (simpleScorer 5 (-4)) (-2) 1 1 →
        M ['A'] ['C'] (simpleScorer 5 (-4)) (-2) 1 (1 - 1) ≤
          M ['A'] ['C'] (simpleScorer 5 (-4)) (-2) (1 - 1) (1 - 1))) ∧
    ((dirs ['A'] ['C'] (simpleScorer 5 (-4)) (-2) 1 1).testBit 1 ↔
      upVal ['A'] ['C'] (simpleScorer 5 (-4)) (-2) 1 1 =
        bestVal ['A'] ['C'] (simpleScorer 5 (-4)) (-2) 1 1 ∧
      (diagVal ['A'] ['C'] (simpleScorer 5 (-4)) (-2) 1 1 =
          bestVal ['A'] ['C'] (simpleScorer 5 (-4)) (-2) 1 1 →
        M ['A'] ['C'] (simpleScorer 5 (-4)) (-2) (1 - 1) (1 - 1) ≤
          M ['A'] ['C'] (simpleScorer 5 (-4)) (-2) (1 - 1) 1) ∧
      (leftVal ['A'] ['C'] (simpleScorer 5 (-4)) (-2) 1 1 =
          bestVal ['A'] ['C'] (simpleScorer 5 (-4)) (-2) 1 1 →
        M ['A'] ['C'] (simpleScorer 5 (-4)) (-2) 1 (1 - 1) ≤
          M ['A'] ['C'] (simpleScorer 5 (-4)) (-2) (1 - 1) 1)) ∧
    ((dirs ['A'] ['C'] (simpleScorer 5 (-4)) (-2) 1 1).testBit 2 ↔
      leftVal ['A'] ['C'] (simpleScorer 5 (-4)) (-2) 1 1 =
        bestVal ['A'] ['C'] (simpleScorer 5 (-4)) (-2) 1 1 ∧
      (diagVal ['A'] ['C'] (simpleScorer 5 (-4)) (-2) 1 1 =
          bestVal ['A'] ['C'] (simpleScorer 5 (-4)) (-2) 1 1 →
        M ['A'] ['C'] (simpleScorer 5 (-4)) (-2) (1 - 1) (1 - 1) ≤
          M ['A'] ['C'] (simpleScorer 5 (-4)) (-2) 1 (1 - 1)) ∧
      (upVal ['A'] ['C'] (simpleScorer 5 (-4)) (-2) 1 1 =
          bestVal ['A'] ['C'] (simpleScorer 5 (-4)) (-2) 1 1 →
        M ['A'] ['C'] (simpleScorer 5 (-4)) (-2) (1 - 1) 1 ≤
          M ['A'] ['C'] (simpleScorer 5 (-4)) (-2) 1 (1 - 1)))) :=
  ⟨by decide, by decide,
    claim_C1_direction_mask ['A'] ['C'] (simpleScorer 5 (-4)) (-2) 1 1
      (by decide) (by decide)⟩

theorem claim_C2_witness :
    (((needleman_wunsch_linear ['A'] ['C'] (simpleScorer 5 (-4)) (-2)
        1).matrices.m).getD 1 []).getD 0 0 = (1 : ℚ) * (-2) ∧
    dirs ['A'] ['C'] (simpleScorer 5 (-4)) (-2) 1 0 = 2 :=
  (claim_C2_matrix_recurrence ['A'] ['C'] (simpleScorer 5 (-4)) (-2) 1).1 1
    (by decide) (by decide)

theorem claim_C3_witness :
    '-' ∉ ['A'] ∧ '-' ∉ ['C'] ∧
    ∀ a ∈ (needleman_wunsch_linear ['A'] ['C'] (simpleScorer 5 (-4)) (-2)
        10).alignments,
      rescore (simpleScorer 5 (-4)) (-2) a =
        (needleman_wunsch_linear ['A'] ['C'] (simpleScorer 5 (-4)) (-2)
          10).score :=
  ⟨by decide, by decide,
    claim_C3_rescore_eq_score ['A'] ['C'] (simpleScorer 5 (-4)) (-2) 10
      (by decide) (by decide)⟩

theorem claim_C5_witness :
    ¬(1 = 0 ∧ 0 = 0) ∧
    (dirs ['A'] ['C'] (simpleScorer 5 (-4)) (-2) 1 0 ≠ 0 ∧
      dirs ['A'] ['C'] (simpleScorer 5 (-4)) (-2) 0 0 = 0) :=
  ⟨by decide,
    claim_C5_mask_nonzero ['A'] ['C'] (simpleScorer 5 (-4)) (-2) 1 0
      (by decide)⟩

theorem claim_C6_witness :
    1 ≤ 2 ∧
    ((needleman_wunsch_linear ['A'] ['C'] (simpleScorer 5 (-4)) (-2)
        1).alignments.length ≤ 1 ∧
      (needleman_wunsch_linear ['A'] ['C'] (simpleScorer 5 (-4)) (-2)
        1).alignments =
        ((needleman_wunsch_linear ['A'] ['C'] (simpleScorer 5 (-4)) (-2)
          2).alignments).take 1) :=
  ⟨by decide,
    claim_C6_bounded_prefix ['A'] ['C'] (simpleScorer 5 (-4)) (-2) 1 2
      (by decide)⟩

theorem claim_C9_witness :
    'A' ∈ ednafull_chars ∧ 'T' ∈ ednafull_chars ∧
    (matrixScorer get_ednafull_matrix (-4) 'A' 'T' =
      matrixScorer get_ednafull_matrix (-4) 'T' 'A' ∧
    matrixScorer get_ednafull_matrix (-4) 'A'.toLower 'T'.toUpper =
      matrixScorer get_ednafull_matrix (-4) 'A'.toUpper 'T'.toUpper ∧
    matrixScorer get_ednafull_matrix (-4) 'A'.toLower 'T'.toLower =
      matrixScorer get_ednafull_matrix (-4) 'A'.toUpper 'T'.toUpper) :=
  ⟨by decide, by decide,
    claim_C9_ednafull_symmetric_case_insensitive 'A' 'T' (by decide)
      (by decide)⟩

theorem claim_C10_witness :
    '-' ∉ ['A'] ∧ '-' ∉ ['C'] ∧
    ∀ a ∈ (needleman_wunsch_linear ['A'] ['C'] (simpleScorer 5 (-4)) (-2)
        10).alignments,
      a.aligned_seq1.filter (· != '-') = ['A'] ∧
      a.aligned_seq2.filter (· != '-') = ['C'] :=
  ⟨by decide, by decide,
    (claim_C10_gap_deletion ['A'] ['C'] (simpleScorer 5 (-4)) (-2) 10).2
      (by decide) (by decide)⟩

end NW
